import Mathlib

/-
  Verification of the Tempesta FW HTTP parser test-harness slice:
  the chunk-splitting driver (split_and_parse_n, do_split_and_parse) of
  src/unnamed/part_000 and the listen-socket table of
  src/tempesta_fw/sock_clnt.c, together with spec-modelled components
  (the parser entry points, the bounded numeric parser and the quoted-token
  validator are not under src/ and are modelled from the spec).
-/

/-- Outcome of one parser invocation: TFW_PASS, TFW_POSTPONE or TFW_BLOCK. -/
inductive ParseRes where
  | Pass
  | Postpone
  | Block
deriving DecidableEq

/-- One step of the byte-at-a-time parser machine on a single input byte:
    either the byte is consumed and more input is needed, or the byte is
    consumed and the message is complete, or the byte is rejected. -/
inductive ParserStep (S : Type) where
  | more (s : S)
  | done (s : S)
  | block (s : S)

/-- Modelled from the spec: the incremental parser entry points
    (tfw_http_parse_req, tfw_h2_parse_req, tfw_http_parse_resp) are not under
    src/. Per the spec, section 3, the resumption state is fully serializable
    and no parsing decision may depend on chunk boundaries, so the parser is
    modelled as an arbitrary byte-at-a-time step function over an abstract
    resumption-state type S. -/
def ParserMachine (S : Type) : Type := S → Nat → ParserStep S

/-- Result of one parse call: the return code, the count of bytes actually
    consumed (the out-parameter named parsed in the C code), and the new
    resumption state. -/
structure FeedRes (S : Type) where
  res : ParseRes
  parsed : Nat
  st : S
deriving DecidableEq

/-- Modelled from the spec: one feed(bytes) call of the missing parser entry
    point. Bytes are consumed in order until the machine completes the message
    (Pass, possibly mid-buffer, pipelining), rejects it (Block), or the buffer
    is exhausted (Postpone). The parsed count is the number of bytes consumed. -/
def feed_bytes {S : Type} (m : ParserMachine S) : S → List Nat → FeedRes S
  | s, [] => ⟨.Postpone, 0, s⟩
  | s, b :: rest =>
    match m s b with
    | .more s1 =>
      ⟨(feed_bytes m s1 rest).res, (feed_bytes m s1 rest).parsed + 1,
       (feed_bytes m s1 rest).st⟩
    | .done s1 => ⟨.Pass, 1, s1⟩
    | .block s1 => ⟨.Block, 1, s1⟩

/-- Feeding the whole buffer as a single chunk, with the accumulated message
    length counter: the reference result that chunked feeding is compared to.
    An empty buffer yields Pass without invoking the parser, exactly as the
    loop in split_and_parse_n does (its r is initialised to TFW_PASS and the
    loop body never runs when len is 0). -/
def parse_one_chunk {S : Type} (m : ParserMachine S) (s : S) (acc : Nat)
    (str : List Nat) : FeedRes S :=
  match str with
  | [] => ⟨.Pass, acc, s⟩
  | _ :: _ =>
    ⟨(feed_bytes m s str).res, acc + (feed_bytes m s str).parsed,
     (feed_bytes m s str).st⟩

/-- The loop body of split_and_parse_n (src/unnamed/part_000 lines 248-284),
    recursing on an explicit fuel so that the definition is structurally
    recursive and kernel-computable. The fuel is always instantiated with the
    length of the buffer, which suffices whenever chunk_size is positive; the
    C loop does not terminate for chunk_size = 0 and a non-empty buffer, and
    every theorem below assumes a positive chunk size. -/
def split_and_parse_go {S : Type} (m : ParserMachine S) (cs : Nat) :
    Nat → S → Nat → List Nat → FeedRes S
  | _, s, acc, [] => ⟨.Pass, acc, s⟩
  | 0, s, acc, _ :: _ => ⟨.Pass, acc, s⟩
  | fuel + 1, s, acc, b :: t =>
    if (feed_bytes m s ((b :: t).take cs)).res = .Postpone ∧ cs < (b :: t).length
    then
      split_and_parse_go m cs fuel (feed_bytes m s ((b :: t).take cs)).st
        (acc + (feed_bytes m s ((b :: t).take cs)).parsed) ((b :: t).drop cs)
    else
      ⟨(feed_bytes m s ((b :: t).take cs)).res,
       acc + (feed_bytes m s ((b :: t).take cs)).parsed,
       (feed_bytes m s ((b :: t).take cs)).st⟩

/-- split_and_parse_n from src/unnamed/part_000 lines 248-284: feed the buffer
    to the parser in successive chunks of size chunk_size (the final chunk is
    truncated to the remaining bytes), accumulating hm.msg.len by the parsed
    count of every call, and return as soon as the parser reports anything
    other than TFW_POSTPONE. -/
def split_and_parse_n {S : Type} (m : ParserMachine S) (s : S) (acc : Nat)
    (str : List Nat) (chunk_size : Nat) : FeedRes S :=
  split_and_parse_go m chunk_size str.length s acc str

/-- The chunk sizes the harness iterates over (src/unnamed/part_000
    lines 53-56). -/
def CHUNK_SIZES : List Nat :=
  [1, 2, 3, 4, 8, 16, 32, 64, 128, 256, 1500, 9216, 1024 * 1024]

/-- Feeding an arbitrary partition of a message, chunk list by chunk list, in
    wire order, with the same control flow as the harness loop: continue on
    TFW_POSTPONE while chunks remain, stop on anything else. -/
def feed_chunks {S : Type} (m : ParserMachine S) : S → Nat → List (List Nat) →
    FeedRes S
  | s, acc, [] => ⟨.Pass, acc, s⟩
  | s, acc, c :: rest =>
    if (feed_bytes m s c).res = .Postpone ∧ rest ≠ [] then
      feed_chunks m (feed_bytes m s c).st (acc + (feed_bytes m s c).parsed) rest
    else
      ⟨(feed_bytes m s c).res, acc + (feed_bytes m s c).parsed,
       (feed_bytes m s c).st⟩

/-- hm_exp_len as prepared by test_case_parse_prepare_http
    (src/unnamed/part_000 line 319): the input length minus sz_diff. -/
def prepared_hm_exp_len (str_len sz_diff : Nat) : Nat := str_len - sz_diff

/-- validate_data_fully_parsed (src/unnamed/part_000 lines 473-483): the
    accumulated hm.msg.len must equal the prepared hm_exp_len. -/
def validate_data_fully_parsed (msg_len exp_len : Nat) : Bool :=
  msg_len == exp_len

/-- A concrete machine used for witnesses: it counts consumed bytes in its
    state and completes the message at the third byte. -/
def m3 : ParserMachine Nat := fun s _ => if s = 2 then .done 3 else .more (s + 1)

/-- HTTP/2 frame subtypes used by the harness frame builders
    (HTTP2_HEADERS and HTTP2_DATA). -/
inductive FrameType where
  | HTTP2_HEADERS
  | HTTP2_DATA
deriving DecidableEq

/-- HTTP/2 stream lifecycle states; the harness places the stream in
    HTTP2_STREAM_REM_HALF_CLOSED before every HTTP/2 parse. -/
inductive StreamState where
  | HTTP2_STREAM_IDLE
  | HTTP2_STREAM_OPENED
  | HTTP2_STREAM_REM_HALF_CLOSED
  | HTTP2_STREAM_CLOSED
deriving DecidableEq

/-- TfwFrameRec (src/unnamed/part_000 lines 128-133): one prepared frame,
    as payload bytes plus frame subtype; the len field of the C record is the
    payload length. -/
structure TfwFrameRec where
  str : List Nat
  subtype : FrameType
deriving DecidableEq

/-- Modelled from the spec: the HTTP/2 request-parser components invoked by
    do_split_and_parse but not under src/: the byte-level tfw_h2_parse_req
    machine, the check tfw_http_parse_check_bodyless_meth (true models a
    nonzero return, meaning a body-disallowed method nonetheless has a body)
    and tfw_h2_parse_req_finish. -/
structure H2Machine (S : Type) where
  step : ParserMachine S
  bodyless_violation : S → Bool
  finish : S → ParseRes × S

/-- The harness state that do_split_and_parse threads for FUZZ_REQ_H2: the
    parser resumption state, the accumulated hm.msg.len, the
    TFW_HTTP_B_HEADERS_PARSED flag, the stream state written by
    test_case_parse_prepare_h2, and the per-frame context fields ctx.hdr.type
    and ctx.plen. -/
structure H2TestState (S : Type) where
  parser : S
  msg_len : Nat
  headers_parsed : Bool
  stream_state : StreamState
  hdr_type : FrameType
  plen : Nat
deriving DecidableEq

/-- test_case_parse_prepare_h2 (src/unnamed/part_000 lines 322-331): before
    every HTTP/2 parse it sets conn.h2.hdr.type to HTTP2_HEADERS and the
    stream state to HTTP2_STREAM_REM_HALF_CLOSED. -/
def test_case_parse_prepare_h2 {S : Type} (st : H2TestState S) : H2TestState S :=
  { st with hdr_type := .HTTP2_HEADERS,
            stream_state := .HTTP2_STREAM_REM_HALF_CLOSED }

/-- The per-frame parse of the do_split_and_parse loop (src/unnamed/part_000
    lines 425-434): a zero-length DATA frame yields TFW_POSTPONE without any
    byte being fed to the parser; any other frame body goes through
    split_and_parse_n with the accumulated hm.msg.len. -/
def h2_frame_feed {S : Type} (M : H2Machine S) (cs : Nat) (st : H2TestState S)
    (f : TfwFrameRec) : FeedRes S :=
  if f.subtype = .HTTP2_DATA ∧ f.str = [] then ⟨.Postpone, st.msg_len, st.parser⟩
  else split_and_parse_n M.step st.parser st.msg_len f.str cs

/-- State update after one frame of the loop: the ctx.hdr.type and ctx.plen
    writes of src lines 419-423 (made before the parse call, and never read
    back by it) together with the new parser state and accumulated length. -/
def h2_apply_feed {S : Type} (st : H2TestState S) (f : TfwFrameRec)
    (r : FeedRes S) : H2TestState S :=
  { st with hdr_type := f.subtype, plen := f.str.length,
            parser := r.st, msg_len := r.parsed }

/-- The frame loop of do_split_and_parse for FUZZ_REQ_H2 (src/unnamed/part_000
    lines 415-449): any per-frame result other than TFW_POSTPONE stops the
    loop; after a HEADERS frame whose parse postponed, a failing
    bodyless-method check turns the result into TFW_BLOCK and stops, and a
    passing check sets TFW_HTTP_B_HEADERS_PARSED and continues. The loop
    running out of frames leaves the last TFW_POSTPONE as its result. -/
def h2_frames_loop {S : Type} (M : H2Machine S) (cs : Nat) :
    H2TestState S → List TfwFrameRec → ParseRes × H2TestState S
  | st, [] => (.Postpone, st)
  | st, f :: rest =>
    if (h2_frame_feed M cs st f).res ≠ .Postpone then
      ((h2_frame_feed M cs st f).res, h2_apply_feed st f (h2_frame_feed M cs st f))
    else if f.subtype = .HTTP2_HEADERS then
      if M.bodyless_violation (h2_frame_feed M cs st f).st then
        (.Block, h2_apply_feed st f (h2_frame_feed M cs st f))
      else
        h2_frames_loop M cs
          { h2_apply_feed st f (h2_frame_feed M cs st f) with headers_parsed := true }
          rest
    else
      h2_frames_loop M cs (h2_apply_feed st f (h2_frame_feed M cs st f)) rest

/-- do_split_and_parse for FUZZ_REQ_H2 at one chunk size (src/unnamed/part_000
    lines 415-453): run the frame loop and, only if its result is still
    TFW_POSTPONE after the last frame, invoke tfw_h2_parse_req_finish. -/
def do_split_and_parse_h2 {S : Type} (M : H2Machine S) (cs : Nat)
    (st : H2TestState S) (frames : List TfwFrameRec) : ParseRes × H2TestState S :=
  if (h2_frames_loop M cs st frames).1 = .Postpone then
    ((M.finish (h2_frames_loop M cs st frames).2.parser).1,
     { (h2_frames_loop M cs st frames).2 with
         parser := (M.finish (h2_frames_loop M cs st frames).2.parser).2 })
  else h2_frames_loop M cs st frames

/-- A concrete HTTP/2 machine for which every frame body postpones, the
    bodyless-method check passes and finishing yields Pass: it makes a
    one-byte HEADERS frame a well-formed request. -/
def MH2pass : H2Machine Nat :=
  ⟨fun s _ => .more (s + 1), fun _ => false, fun s => (.Pass, s)⟩

/-- A concrete HTTP/2 machine whose bodyless-method check always reports a
    violation. -/
def MH2viol : H2Machine Nat :=
  ⟨fun s _ => .more (s + 1), fun _ => true, fun s => (.Pass, s)⟩

/-- Decimal digit byte (codes 48 to 57). -/
def is_digit_byte (b : Nat) : Bool := decide (48 ≤ b ∧ b ≤ 57)

/-- Value of a decimal digit string, most significant digit first. -/
def digits_val (s : List Nat) : Nat :=
  s.foldl (fun a b => a * 10 + (b - 48)) 0

/-- Modelled from the spec: the accumulating loop of the bounded
    unsigned-integer parser for numeric header values (the parser source is
    not under src/; the spec, section 4.2, prescribes a strict grammar with
    no signs, no whitespace, no fractional part, and a half-open range check
    against the target width performed while accumulating). A non-digit byte
    or an accumulated value reaching the bound is a hard failure. -/
def parse_uint_go (bound : Nat) : Nat → List Nat → Option Nat
  | acc, [] => some acc
  | acc, b :: rest =>
    if is_digit_byte b then
      if acc * 10 + (b - 48) < bound then
        parse_uint_go bound (acc * 10 + (b - 48)) rest
      else none
    else none

/-- Modelled from the spec: the bounded unsigned-integer parser for numeric
    header values such as Content-Length. The empty string is rejected;
    otherwise the digit string is accumulated under the half-open bound. -/
def parse_uint (str : List Nat) (bound : Nat) : Option Nat :=
  match str with
  | [] => none
  | _ :: _ => parse_uint_go bound 0 str

/-- Allowed byte inside the quotes of an ETag opaque tag: a visible printable
    character other than the double quote, or an obs-text byte; this covers
    the ETAG_ALPHABET sample of src/unnamed/part_000 lines 65-70 and excludes
    every control character, the space and the double quote. -/
def etag_char_ok (b : Nat) : Bool :=
  decide ((33 ≤ b ∧ b ≤ 126 ∧ b ≠ 34) ∨ (128 ≤ b ∧ b ≤ 255))

/-- Modelled from the spec: the tail of a quoted ETag value after the opening
    double quote. The seen flag records whether at least one allowed content
    byte has been consumed; the value ends exactly at a closing double quote
    and must contain at least one allowed byte, so empty or whitespace-only
    quoted values and stray quote characters are rejected. -/
def etag_content_ok : List Nat → Bool → Bool
  | [], _ => false
  | [c], seen => decide (c = 34) && seen
  | c :: rest, _ => etag_char_ok c && etag_content_ok rest true

/-- A quoted ETag value: an opening double quote followed by a valid tail. -/
def etag_quoted_ok : List Nat → Bool
  | 34 :: rest => etag_content_ok rest false
  | _ => false

/-- Modelled from the spec: the quoted-token validator for ETag and
    If-None-Match values (the validator source is not under src/; the spec,
    section 4.2, requires a case-sensitive weak prefix W/ immediately followed
    by the opening quote, and rejection of control characters, empty or
    whitespace-only quoted values and mismatched quotes). Byte 87 is W and
    byte 47 is the slash. -/
def etag_validate : List Nat → Bool
  | 87 :: 47 :: rest => etag_quoted_ok rest
  | s => etag_quoted_ok s

/-- LISTEN_SOCKS_MAX (src/tempesta_fw/sock_clnt.c line 50). -/
def LISTEN_SOCKS_MAX : Nat := 8

/-- The ENOBUFS error number; add_listen_sock returns its negation when the
    socket table is full. -/
def ENOBUFS : Int := 105

/-- The module state of sock_clnt.c used by add_listen_sock: the fixed-size
    listen_socks table (slots hold socket identifiers) and the counter
    listen_socks_n. -/
structure SockClntState where
  listen_socks : List (Option Nat)
  listen_socks_n : Nat
deriving DecidableEq

/-- Outcome of sock_create_kern as seen by add_listen_sock: a socket on
    success, the nonzero error return otherwise. -/
inductive CreateRes where
  | ok (s : Nat)
  | err (r : Int)
deriving DecidableEq

/-- The environment of one add_listen_sock call: the result of
    sock_create_kern and, when creation succeeded, the error of the bind call
    (none meaning bind succeeded). -/
structure SockEnv where
  create_res : CreateRes
  bind_err : Option Int
deriving DecidableEq

/-- add_listen_sock (src/tempesta_fw/sock_clnt.c lines 66-103): refuse with
    minus ENOBUFS when the table already holds LISTEN_SOCKS_MAX sockets;
    propagate a socket-creation error unchanged; on bind failure release the
    socket and propagate the error; on success store the socket at index
    listen_socks_n and increment the counter. -/
def add_listen_sock (env : SockEnv) (st : SockClntState) : Int × SockClntState :=
  if st.listen_socks_n = LISTEN_SOCKS_MAX then (-ENOBUFS, st)
  else
    match env.create_res with
    | .err r => (r, st)
    | .ok s =>
      match env.bind_err with
      | some r => (r, st)
      | none =>
        (0, ⟨st.listen_socks.set st.listen_socks_n (some s),
             st.listen_socks_n + 1⟩)

theorem feed_bytes_append {S : Type} (m : ParserMachine S) (s : S)
    (c1 c2 : List Nat) :
    feed_bytes m s (c1 ++ c2) =
      if (feed_bytes m s c1).res = .Postpone then
        ⟨(feed_bytes m (feed_bytes m s c1).st c2).res,
         (feed_bytes m s c1).parsed + (feed_bytes m (feed_bytes m s c1).st c2).parsed,
         (feed_bytes m (feed_bytes m s c1).st c2).st⟩
      else feed_bytes m s c1 := by
  induction c1 generalizing s with
  | nil => simp [feed_bytes]
  | cons b t ih =>
    show feed_bytes m s (b :: (t ++ c2)) = _
    cases hm : m s b with
    | more s1 =>
      simp only [feed_bytes, hm]
      rw [ih s1]
      by_cases h : (feed_bytes m s1 t).res = .Postpone
      · simp [h]
        omega
      · simp [h]
    | done s1 => simp [feed_bytes, hm]
    | block s1 => simp [feed_bytes, hm]

theorem feed_bytes_parsed_le {S : Type} (m : ParserMachine S) (s : S)
    (l : List Nat) : (feed_bytes m s l).parsed ≤ l.length := by
  induction l generalizing s with
  | nil => simp [feed_bytes]
  | cons b t ih =>
    simp only [feed_bytes]
    cases m s b with
    | more s1 => simpa [Nat.succ_le_succ_iff] using ih s1
    | done s1 => simp
    | block s1 => simp

theorem parse_one_chunk_of_ne {S : Type} (m : ParserMachine S) (s : S)
    (acc : Nat) (str : List Nat) (h : str ≠ []) :
    parse_one_chunk m s acc str =
      ⟨(feed_bytes m s str).res, acc + (feed_bytes m s str).parsed,
       (feed_bytes m s str).st⟩ := by
  cases str with
  | nil => exact absurd rfl h
  | cons b t => rfl

theorem parse_one_chunk_split {S : Type} (m : ParserMachine S) (s : S)
    (acc : Nat) (c d : List Nat) (hc : c ≠ []) (hd : d ≠ [])
    (hp : (feed_bytes m s c).res = .Postpone) :
    parse_one_chunk m s acc (c ++ d) =
      parse_one_chunk m (feed_bytes m s c).st (acc + (feed_bytes m s c).parsed) d := by
  have hcd : c ++ d ≠ [] := by
    intro h
    exact hc (List.append_eq_nil.mp h).1
  rw [parse_one_chunk_of_ne m s acc (c ++ d) hcd,
      parse_one_chunk_of_ne m _ _ d hd,
      feed_bytes_append m s c d]
  simp [hp, Nat.add_assoc]

theorem parse_one_chunk_stop {S : Type} (m : ParserMachine S) (s : S)
    (acc : Nat) (c d : List Nat) (hc : c ≠ [])
    (hp : (feed_bytes m s c).res ≠ .Postpone) :
    parse_one_chunk m s acc (c ++ d) =
      ⟨(feed_bytes m s c).res, acc + (feed_bytes m s c).parsed,
       (feed_bytes m s c).st⟩ := by
  have hcd : c ++ d ≠ [] := by
    intro h
    exact hc (List.append_eq_nil.mp h).1
  rw [parse_one_chunk_of_ne m s acc (c ++ d) hcd, feed_bytes_append m s c d]
  simp [hp]

theorem split_go_eq_one_chunk {S : Type} (m : ParserMachine S) (cs : Nat)
    (hcs : 0 < cs) :
    ∀ (fuel : Nat) (s : S) (acc : Nat) (str : List Nat), str.length ≤ fuel →
      split_and_parse_go m cs fuel s acc str = parse_one_chunk m s acc str := by
  intro fuel
  induction fuel with
  | zero =>
    intro s acc str h
    have hstr : str = [] := List.eq_nil_of_length_eq_zero (Nat.le_zero.mp h)
    subst hstr
    rfl
  | succ fuel ih =>
    intro s acc str h
    cases str with
    | nil => rfl
    | cons b t =>
      by_cases hlt : cs < (b :: t).length
      · have htake : (b :: t).take cs ≠ [] := by
          cases cs with
          | zero => omega
          | succ k => simp
        have hdrop : (b :: t).drop cs ≠ [] := by
          intro hn
          have h2 := congrArg List.length hn
          rw [List.length_drop] at h2
          simp only [List.length_nil] at h2
          omega
        have hfle : ((b :: t).drop cs).length ≤ fuel := by
          rw [List.length_drop]
          omega
        by_cases hres : (feed_bytes m s ((b :: t).take cs)).res = .Postpone
        · have hgo : split_and_parse_go m cs (fuel + 1) s acc (b :: t) =
              split_and_parse_go m cs fuel (feed_bytes m s ((b :: t).take cs)).st
                (acc + (feed_bytes m s ((b :: t).take cs)).parsed)
                ((b :: t).drop cs) := by
            simp only [split_and_parse_go]
            rw [if_pos ⟨hres, hlt⟩]
          rw [hgo, ih _ _ _ hfle]
          conv_rhs => rw [show (b :: t) = (b :: t).take cs ++ (b :: t).drop cs from
            (List.take_append_drop cs (b :: t)).symm]
          rw [parse_one_chunk_split m s acc _ _ htake hdrop hres]
        · have hgo : split_and_parse_go m cs (fuel + 1) s acc (b :: t) =
              ⟨(feed_bytes m s ((b :: t).take cs)).res,
               acc + (feed_bytes m s ((b :: t).take cs)).parsed,
               (feed_bytes m s ((b :: t).take cs)).st⟩ := by
            simp only [split_and_parse_go]
            rw [if_neg (by tauto)]
          rw [hgo]
          conv_rhs => rw [show (b :: t) = (b :: t).take cs ++ (b :: t).drop cs from
            (List.take_append_drop cs (b :: t)).symm]
          rw [parse_one_chunk_stop m s acc _ _ htake hres]
      · have htake : (b :: t).take cs = b :: t :=
          List.take_of_length_le (by omega)
        have hgo : split_and_parse_go m cs (fuel + 1) s acc (b :: t) =
            ⟨(feed_bytes m s ((b :: t).take cs)).res,
             acc + (feed_bytes m s ((b :: t).take cs)).parsed,
             (feed_bytes m s ((b :: t).take cs)).st⟩ := by
          simp only [split_and_parse_go]
          rw [if_neg (by tauto)]
        rw [hgo, htake, parse_one_chunk_of_ne m s acc (b :: t) (by simp)]

theorem split_and_parse_n_eq_one_chunk {S : Type} (m : ParserMachine S)
    (s : S) (acc : Nat) (str : List Nat) (cs : Nat) (hcs : 0 < cs) :
    split_and_parse_n m s acc str cs = parse_one_chunk m s acc str :=
  split_go_eq_one_chunk m cs hcs str.length s acc str (Nat.le_refl _)

theorem flatten_ne_nil_of_head_ne_nil {α : Type} (c : List α)
    (rest : List (List α)) (hc : c ≠ []) : (c :: rest).flatten ≠ [] := by
  simp only [List.flatten_cons]
  intro h
  exact hc (List.append_eq_nil.mp h).1

theorem feed_chunks_eq_one_chunk {S : Type} (m : ParserMachine S) :
    ∀ (parts : List (List Nat)) (s : S) (acc : Nat),
      (∀ c ∈ parts, c ≠ []) →
      feed_chunks m s acc parts = parse_one_chunk m s acc parts.flatten := by
  intro parts
  induction parts with
  | nil => intro s acc h; rfl
  | cons c rest ih =>
    intro s acc h
    have hc : c ≠ [] := h c (by simp)
    cases rest with
    | nil =>
      have heq : feed_chunks m s acc [c] =
          ⟨(feed_bytes m s c).res, acc + (feed_bytes m s c).parsed,
           (feed_bytes m s c).st⟩ := by
        simp [feed_chunks]
      rw [heq]
      simp only [List.flatten_cons, List.flatten_nil, List.append_nil]
      rw [parse_one_chunk_of_ne m s acc c hc]
    | cons d rest2 =>
      have hd : d ≠ [] := h d (by simp)
      have hflat : (d :: rest2).flatten ≠ [] :=
        flatten_ne_nil_of_head_ne_nil d rest2 hd
      by_cases hres : (feed_bytes m s c).res = .Postpone
      · have heq : feed_chunks m s acc (c :: d :: rest2) =
            feed_chunks m (feed_bytes m s c).st (acc + (feed_bytes m s c).parsed)
              (d :: rest2) := by
          simp only [feed_chunks]
          rw [if_pos ⟨hres, by simp⟩]
        rw [heq, ih _ _ (fun x hx => h x (by simp [hx]))]
        conv_rhs => rw [List.flatten_cons]
        exact (parse_one_chunk_split m s acc c ((d :: rest2).flatten)
          hc hflat hres).symm
      · have heq : feed_chunks m s acc (c :: d :: rest2) =
            ⟨(feed_bytes m s c).res, acc + (feed_bytes m s c).parsed,
             (feed_bytes m s c).st⟩ := by
          simp only [feed_chunks]
          rw [if_neg (by tauto)]
        rw [heq]
        conv_rhs => rw [List.flatten_cons]
        exact (parse_one_chunk_stop m s acc c ((d :: rest2).flatten)
          hc hres).symm

theorem take_ne_nil_of_pos {α : Type} (l : List α) (n : Nat) (hl : l ≠ [])
    (hn : 0 < n) : l.take n ≠ [] := by
  cases l with
  | nil => exact absurd rfl hl
  | cons a t =>
    cases n with
    | zero => omega
    | succ k => simp

theorem drop_ne_nil_of_lt {α : Type} (l : List α) (n : Nat) (h : n < l.length) :
    l.drop n ≠ [] := by
  intro hn
  have h2 := congrArg List.length hn
  rw [List.length_drop] at h2
  simp only [List.length_nil] at h2
  omega

/-- C1: Fragmentation invariance: for every parser machine, every message and
    every way of partitioning its bytes into successive non-empty chunks, and
    in particular for every chunk size used by split_and_parse_n over the
    sizes in CHUNK_SIZES, feeding the chunks in wire order produces the same
    final outcome, the same accumulated message length and the same final
    parser state (hence parsed message contents) as feeding the whole message
    as one chunk. -/
theorem C1_fragmentation_invariance {S : Type} (m : ParserMachine S) (s : S)
    (acc : Nat) (str : List Nat) (parts : List (List Nat)) (cs : Nat)
    (hparts : parts.flatten = str) (hne : ∀ c ∈ parts, c ≠ []) (hcs : 0 < cs) :
    feed_chunks m s acc parts = parse_one_chunk m s acc str ∧
    split_and_parse_n m s acc str cs = parse_one_chunk m s acc str ∧
    ∀ k ∈ CHUNK_SIZES,
      split_and_parse_n m s acc str k = parse_one_chunk m s acc str := by
  refine ⟨?_, split_and_parse_n_eq_one_chunk m s acc str cs hcs, ?_⟩
  · rw [← hparts]
    exact feed_chunks_eq_one_chunk m parts s acc hne
  · intro k hk
    have hall : ∀ x ∈ CHUNK_SIZES, 0 < x := by decide
    exact split_and_parse_n_eq_one_chunk m s acc str k (hall k hk)

theorem C1_fragmentation_invariance_witness :
    feed_chunks m3 0 0 [[7], [7, 7, 7]] = parse_one_chunk m3 0 0 [7, 7, 7, 7] ∧
    split_and_parse_n m3 0 0 [7, 7, 7, 7] 2 = parse_one_chunk m3 0 0 [7, 7, 7, 7] ∧
    ∀ k ∈ CHUNK_SIZES,
      split_and_parse_n m3 0 0 [7, 7, 7, 7] k = parse_one_chunk m3 0 0 [7, 7, 7, 7] :=
  C1_fragmentation_invariance m3 0 0 [7, 7, 7, 7] [[7], [7, 7, 7]] 2
    (by decide) (by decide) (by decide)

/-- C2: Consumed-length exactness: if the parser machine completes one
    well-formed message within the buffer, consuming exactly L bytes
    (possibly leaving trailing bytes unconsumed), then for every positive
    chunk size the accumulated consumed-byte counter built by
    split_and_parse_n equals exactly L, never more and never less, and the
    validate_data_fully_parsed check succeeds against the hm_exp_len prepared
    by test_case_parse_prepare_http with sz_diff equal to the trailing byte
    count. -/
theorem C2_consumed_length_exactness {S : Type} (m : ParserMachine S) (s : S)
    (str : List Nat) (L : Nat) (sf : S) (cs : Nat)
    (hdone : feed_bytes m s str = ⟨.Pass, L, sf⟩) (hcs : 0 < cs) :
    split_and_parse_n m s 0 str cs = ⟨.Pass, L, sf⟩ ∧
    L ≤ str.length ∧
    validate_data_fully_parsed (split_and_parse_n m s 0 str cs).parsed
      (prepared_hm_exp_len str.length (str.length - L)) = true := by
  have hne : str ≠ [] := by
    intro h
    subst h
    simp [feed_bytes] at hdone
  have hL : L ≤ str.length := by
    have hple := feed_bytes_parsed_le m s str
    rw [hdone] at hple
    exact hple
  have hsplit : split_and_parse_n m s 0 str cs = ⟨.Pass, L, sf⟩ := by
    rw [split_and_parse_n_eq_one_chunk m s 0 str cs hcs,
        parse_one_chunk_of_ne m s 0 str hne, hdone]
    simp
  refine ⟨hsplit, hL, ?_⟩
  rw [hsplit]
  have hexp : prepared_hm_exp_len str.length (str.length - L) = L := by
    unfold prepared_hm_exp_len
    omega
  rw [hexp]
  simp [validate_data_fully_parsed]

theorem C2_consumed_length_exactness_witness :
    split_and_parse_n m3 0 0 [7, 7, 7, 7] 1 = ⟨.Pass, 3, 3⟩ ∧
    3 ≤ ([7, 7, 7, 7] : List Nat).length ∧
    validate_data_fully_parsed (split_and_parse_n m3 0 0 [7, 7, 7, 7] 1).parsed
      (prepared_hm_exp_len ([7, 7, 7, 7] : List Nat).length
        (([7, 7, 7, 7] : List Nat).length - 3)) = true :=
  C2_consumed_length_exactness m3 0 [7, 7, 7, 7] 3 3 1 (by decide) (by decide)

/-- C9: Feed return contract and early stop: every feed call returns exactly
    one of Pass, Postpone or Block; the chunk loop of split_and_parse_n
    advances to the next chunk exactly when the parser returned Postpone for
    the previous chunk and bytes remain; as soon as the parser returns Pass
    or Block the loop returns that result immediately, and bytes appended
    after the message are never fed. -/
theorem C9_feed_return_contract {S : Type} (m : ParserMachine S) (s : S)
    (acc : Nat) (str : List Nat) (cs : Nat) (hcs : 0 < cs) (hne : str ≠ []) :
    ((feed_bytes m s str).res = .Pass ∨ (feed_bytes m s str).res = .Postpone ∨
       (feed_bytes m s str).res = .Block) ∧
    ((feed_bytes m s (str.take cs)).res = .Postpone → cs < str.length →
       split_and_parse_n m s acc str cs =
         split_and_parse_n m (feed_bytes m s (str.take cs)).st
           (acc + (feed_bytes m s (str.take cs)).parsed) (str.drop cs) cs) ∧
    ((feed_bytes m s (str.take cs)).res ≠ .Postpone →
       split_and_parse_n m s acc str cs =
         ⟨(feed_bytes m s (str.take cs)).res,
          acc + (feed_bytes m s (str.take cs)).parsed,
          (feed_bytes m s (str.take cs)).st⟩) ∧
    ((split_and_parse_n m s acc str cs).res ≠ .Postpone →
       ∀ ext, split_and_parse_n m s acc (str ++ ext) cs =
         split_and_parse_n m s acc str cs) := by
  refine ⟨?_, ?_, ?_, ?_⟩
  · cases h : (feed_bytes m s str).res <;> simp
  · intro hp hlt
    have htake : str.take cs ≠ [] := take_ne_nil_of_pos str cs hne hcs
    have hdrop : str.drop cs ≠ [] := drop_ne_nil_of_lt str cs hlt
    rw [split_and_parse_n_eq_one_chunk m s acc str cs hcs,
        split_and_parse_n_eq_one_chunk m _ _ (str.drop cs) cs hcs]
    conv_lhs => rw [show str = str.take cs ++ str.drop cs from
      (List.take_append_drop cs str).symm]
    exact parse_one_chunk_split m s acc (str.take cs) (str.drop cs)
      htake hdrop hp
  · intro hp
    have htake : str.take cs ≠ [] := take_ne_nil_of_pos str cs hne hcs
    rw [split_and_parse_n_eq_one_chunk m s acc str cs hcs]
    conv_lhs => rw [show str = str.take cs ++ str.drop cs from
      (List.take_append_drop cs str).symm]
    exact parse_one_chunk_stop m s acc (str.take cs) (str.drop cs) htake hp
  · intro hstop ext
    have hfeed : (feed_bytes m s str).res ≠ .Postpone := by
      rw [split_and_parse_n_eq_one_chunk m s acc str cs hcs,
          parse_one_chunk_of_ne m s acc str hne] at hstop
      exact hstop
    rw [split_and_parse_n_eq_one_chunk m s acc (str ++ ext) cs hcs,
        split_and_parse_n_eq_one_chunk m s acc str cs hcs,
        parse_one_chunk_stop m s acc str ext hne hfeed,
        parse_one_chunk_of_ne m s acc str hne]

theorem C9_feed_return_contract_witness :
    split_and_parse_n m3 0 0 ([7, 7, 7, 7] ++ [9]) 2 =
      split_and_parse_n m3 0 0 [7, 7, 7, 7] 2 :=
  (C9_feed_return_contract m3 0 0 [7, 7, 7, 7] 2 (by decide) (by decide)).2.2.2
    (by decide) [9]

theorem h2_frame_feed_mk {S : Type} (M : H2Machine S) (cs : Nat) (p : S)
    (ml : Nat) (hp : Bool) (ss : StreamState) (ht : FrameType) (pl : Nat)
    (f : TfwFrameRec) :
    h2_frame_feed M cs ⟨p, ml, hp, ss, ht, pl⟩ f =
      if f.subtype = .HTTP2_DATA ∧ f.str = [] then ⟨.Postpone, ml, p⟩
      else split_and_parse_n M.step p ml f.str cs := rfl

theorem h2_apply_feed_mk {S : Type} (p : S) (ml : Nat) (hp : Bool)
    (ss : StreamState) (ht : FrameType) (pl : Nat) (f : TfwFrameRec)
    (r : FeedRes S) :
    h2_apply_feed (⟨p, ml, hp, ss, ht, pl⟩ : H2TestState S) f r =
      ⟨r.st, r.parsed, hp, ss, f.subtype, f.str.length⟩ := rfl

theorem h2_frames_loop_stream_state {S : Type} (M : H2Machine S) (cs : Nat) :
    ∀ (frames : List TfwFrameRec) (p : S) (ml : Nat) (hp : Bool)
      (ss1 ss2 : StreamState) (ht : FrameType) (pl : Nat),
      h2_frames_loop M cs ⟨p, ml, hp, ss2, ht, pl⟩ frames =
        ((h2_frames_loop M cs ⟨p, ml, hp, ss1, ht, pl⟩ frames).1,
         { (h2_frames_loop M cs ⟨p, ml, hp, ss1, ht, pl⟩ frames).2 with
             stream_state := ss2 }) := by
  intro frames
  induction frames with
  | nil => intro p ml hp ss1 ss2 ht pl; rfl
  | cons f rest ih =>
    intro p ml hp ss1 ss2 ht pl
    simp only [h2_frames_loop, h2_frame_feed_mk, h2_apply_feed_mk]
    set r : FeedRes S :=
      if f.subtype = .HTTP2_DATA ∧ f.str = [] then (⟨.Postpone, ml, p⟩ : FeedRes S)
      else split_and_parse_n M.step p ml f.str cs with hr
    by_cases h1 : r.res = .Postpone
    · by_cases h2 : f.subtype = .HTTP2_HEADERS
      · by_cases h3 : M.bodyless_violation r.st = true
        · simp [h1, h2, h3]
        · simp only [h1, h2, h3, ne_eq, not_true_eq_false, if_false,
            Bool.false_eq_true, if_true]
          exact ih r.st r.parsed true ss1 ss2 .HTTP2_HEADERS f.str.length
      · simp only [h1, h2, ne_eq, not_true_eq_false, if_false]
        exact ih r.st r.parsed hp ss1 ss2 f.subtype f.str.length
    · simp [h1]

/-- C3 counterexample: the claim states that every HEADERS frame parsed with
    the stream in HTTP2_STREAM_REM_HALF_CLOSED (the state that
    test_case_parse_prepare_h2 installs before every HTTP/2 parse) yields
    Block regardless of the frame itself. Here is a concrete run after
    test_case_parse_prepare_h2, with a parser for which the one-byte HEADERS
    frame is a well-formed request, whose outcome is Pass, not Block: the
    harness parse path never consults the stream state, and its expect-pass
    macros run entirely in this state. -/
theorem C3_counterexample :
    (test_case_parse_prepare_h2
        (⟨0, 0, false, .HTTP2_STREAM_IDLE, .HTTP2_DATA, 0⟩ :
          H2TestState Nat)).stream_state = .HTTP2_STREAM_REM_HALF_CLOSED ∧
    (do_split_and_parse_h2 MH2pass 1
        (test_case_parse_prepare_h2
          (⟨0, 0, false, .HTTP2_STREAM_IDLE, .HTTP2_DATA, 0⟩ : H2TestState Nat))
        [⟨[0], .HTTP2_HEADERS⟩]).1 = .Pass := by
  constructor
  · rfl
  · decide

/-- C3 amended: test_case_parse_prepare_h2 does place the stream in
    HTTP2_STREAM_REM_HALF_CLOSED before every HTTP/2 parse, but parsing in
    that state does not yield Block: the outcome, final parser state and
    accumulated length of the harness HTTP/2 parse are independent of the
    stream state, so a well-formed HEADERS frame still yields Pass; the
    rejection of HEADERS frames opening a new header block on an already
    half-closed stream is enforced by stream-FSM code outside this
    repository slice. -/
theorem C3_stream_state_not_consulted {S : Type} (M : H2Machine S) (cs : Nat)
    (p : S) (ml : Nat) (hp : Bool) (ss1 ss2 : StreamState) (ht : FrameType)
    (pl : Nat) (frames : List TfwFrameRec) (st : H2TestState S) :
    (test_case_parse_prepare_h2 st).stream_state =
      .HTTP2_STREAM_REM_HALF_CLOSED ∧
    (do_split_and_parse_h2 M cs ⟨p, ml, hp, ss2, ht, pl⟩ frames).1 =
      (do_split_and_parse_h2 M cs ⟨p, ml, hp, ss1, ht, pl⟩ frames).1 ∧
    (do_split_and_parse_h2 M cs ⟨p, ml, hp, ss2, ht, pl⟩ frames).2.parser =
      (do_split_and_parse_h2 M cs ⟨p, ml, hp, ss1, ht, pl⟩ frames).2.parser ∧
    (do_split_and_parse_h2 M cs ⟨p, ml, hp, ss2, ht, pl⟩ frames).2.msg_len =
      (do_split_and_parse_h2 M cs ⟨p, ml, hp, ss1, ht, pl⟩ frames).2.msg_len := by
  refine ⟨rfl, ?_⟩
  have h := h2_frames_loop_stream_state M cs frames p ml hp ss1 ss2 ht pl
  unfold do_split_and_parse_h2
  rw [h]
  by_cases hres : (h2_frames_loop M cs ⟨p, ml, hp, ss1, ht, pl⟩ frames).1 =
    .Postpone
  · simp [hres]
  · simp [hres]

/-- C6: Zero-length DATA frame handling: a DATA frame with empty payload is
    transparent in the do_split_and_parse frame loop: it yields TFW_POSTPONE
    without feeding any byte to the parser (parser state and accumulated
    hm.msg.len unchanged, only ctx.hdr.type and ctx.plen written), the loop
    proceeds to the remaining frames, tfw_h2_parse_req_finish is invoked only
    after the last frame, and such a frame alone never completes the loop. -/
theorem C6_zero_length_data_frame {S : Type} (M : H2Machine S) (cs : Nat)
    (st : H2TestState S) (rest : List TfwFrameRec) :
    h2_frames_loop M cs st ((⟨[], .HTTP2_DATA⟩ : TfwFrameRec) :: rest) =
      h2_frames_loop M cs { st with hdr_type := .HTTP2_DATA, plen := 0 } rest ∧
    do_split_and_parse_h2 M cs st ((⟨[], .HTTP2_DATA⟩ : TfwFrameRec) :: rest) =
      do_split_and_parse_h2 M cs { st with hdr_type := .HTTP2_DATA, plen := 0 }
        rest ∧
    (h2_frames_loop M cs st [(⟨[], .HTTP2_DATA⟩ : TfwFrameRec)]).1 =
      .Postpone ∧
    (h2_frames_loop M cs st [(⟨[], .HTTP2_DATA⟩ : TfwFrameRec)]).2.parser =
      st.parser ∧
    (h2_frames_loop M cs st [(⟨[], .HTTP2_DATA⟩ : TfwFrameRec)]).2.msg_len =
      st.msg_len := by
  have hloop : ∀ rest2 : List TfwFrameRec,
      h2_frames_loop M cs st ((⟨[], .HTTP2_DATA⟩ : TfwFrameRec) :: rest2) =
        h2_frames_loop M cs { st with hdr_type := .HTTP2_DATA, plen := 0 }
          rest2 := by
    intro rest2
    simp [h2_frames_loop, h2_frame_feed, h2_apply_feed]
  refine ⟨hloop rest, ?_, ?_, ?_, ?_⟩
  · unfold do_split_and_parse_h2
    rw [hloop rest]
  · rw [hloop []]
    rfl
  · rw [hloop []]
    rfl
  · rw [hloop []]
    rfl

/-- C7: Bodyless-method check: immediately after a HEADERS frame whose body
    was fully fed (the parse postponed, awaiting further frames), the loop
    evaluates tfw_http_parse_check_bodyless_meth; if the declared method
    forbids a body and a body is nonetheless present (the check fails), the
    outcome of do_split_and_parse is Block, not Postpone, without invoking
    tfw_h2_parse_req_finish, and the TFW_HTTP_B_HEADERS_PARSED flag is left
    unset; if the check passes the flag is set and the loop continues. -/
theorem C7_bodyless_method_check {S : Type} (M : H2Machine S) (cs : Nat)
    (st : H2TestState S) (f : TfwFrameRec) (rest : List TfwFrameRec)
    (n : Nat) (ps : S) (hH : f.subtype = .HTTP2_HEADERS)
    (hsplit : split_and_parse_n M.step st.parser st.msg_len f.str cs =
      ⟨.Postpone, n, ps⟩) :
    (M.bodyless_violation ps = true →
       do_split_and_parse_h2 M cs st (f :: rest) =
         (.Block, { st with hdr_type := .HTTP2_HEADERS, plen := f.str.length,
                            parser := ps, msg_len := n }) ∧
       ({ st with hdr_type := .HTTP2_HEADERS, plen := f.str.length,
                  parser := ps, msg_len := n } : H2TestState S).headers_parsed =
         st.headers_parsed) ∧
    (M.bodyless_violation ps = false →
       do_split_and_parse_h2 M cs st (f :: rest) =
         do_split_and_parse_h2 M cs
           { st with hdr_type := .HTTP2_HEADERS, plen := f.str.length,
                     parser := ps, msg_len := n, headers_parsed := true }
           rest) := by
  have hnd : ¬(f.subtype = .HTTP2_DATA ∧ f.str = []) := by
    rw [hH]
    rintro ⟨hcon, -⟩
    exact FrameType.noConfusion hcon
  have hfeed : h2_frame_feed M cs st f = ⟨.Postpone, n, ps⟩ := by
    unfold h2_frame_feed
    rw [if_neg hnd, hsplit]
  constructor
  · intro hv
    have hloop : h2_frames_loop M cs st (f :: rest) =
        (.Block, h2_apply_feed st f ⟨.Postpone, n, ps⟩) := by
      simp [h2_frames_loop, hfeed, hH, hv]
    constructor
    · unfold do_split_and_parse_h2
      rw [hloop]
      simp [h2_apply_feed, hH]
    · rfl
  · intro hv
    have hloop : h2_frames_loop M cs st (f :: rest) =
        h2_frames_loop M cs
          { h2_apply_feed st f ⟨.Postpone, n, ps⟩ with headers_parsed := true }
          rest := by
      simp [h2_frames_loop, hfeed, hH, hv]
    unfold do_split_and_parse_h2
    rw [hloop]
    simp [h2_apply_feed, hH]

theorem C7_bodyless_method_check_witness :
    do_split_and_parse_h2 MH2viol 1
        (⟨0, 0, false, .HTTP2_STREAM_REM_HALF_CLOSED, .HTTP2_HEADERS, 0⟩ :
          H2TestState Nat)
        [⟨[5], .HTTP2_HEADERS⟩] =
      (.Block,
       (⟨1, 1, false, .HTTP2_STREAM_REM_HALF_CLOSED, .HTTP2_HEADERS, 1⟩ :
         H2TestState Nat)) :=
  ((C7_bodyless_method_check MH2viol 1
      ⟨0, 0, false, .HTTP2_STREAM_REM_HALF_CLOSED, .HTTP2_HEADERS, 0⟩
      ⟨[5], .HTTP2_HEADERS⟩ [] 1 1 rfl (by decide)).1 (by decide)).1

theorem foldl_digits_le : ∀ (t : List Nat) (a : Nat),
    a ≤ t.foldl (fun x c => x * 10 + (c - 48)) a := by
  intro t
  induction t with
  | nil => intro a; simp
  | cons c t2 ih =>
    intro a
    calc a ≤ a * 10 + (c - 48) := by omega
    _ ≤ _ := by simpa using ih (a * 10 + (c - 48))

theorem parse_uint_go_lt (bound : Nat) :
    ∀ (l : List Nat) (acc v : Nat), parse_uint_go bound acc l = some v →
      acc < bound → v < bound := by
  intro l
  induction l with
  | nil =>
    intro acc v h hb
    simp [parse_uint_go] at h
    omega
  | cons b t ih =>
    intro acc v h hb
    simp only [parse_uint_go] at h
    by_cases hd : is_digit_byte b
    · rw [if_pos hd] at h
      by_cases hlt : acc * 10 + (b - 48) < bound
      · rw [if_pos hlt] at h
        exact ih _ _ h hlt
      · rw [if_neg hlt] at h
        exact Option.noConfusion h
    · rw [if_neg hd] at h
      exact Option.noConfusion h

theorem parse_uint_go_sound (bound : Nat) :
    ∀ (l : List Nat) (acc v : Nat), parse_uint_go bound acc l = some v →
      v = l.foldl (fun x c => x * 10 + (c - 48)) acc ∧
      l.all is_digit_byte = true := by
  intro l
  induction l with
  | nil =>
    intro acc v h
    simp [parse_uint_go] at h
    simp [h]
  | cons b t ih =>
    intro acc v h
    simp only [parse_uint_go] at h
    by_cases hd : is_digit_byte b
    · rw [if_pos hd] at h
      by_cases hlt : acc * 10 + (b - 48) < bound
      · rw [if_pos hlt] at h
        have := ih _ _ h
        simp [List.foldl_cons, List.all_cons, hd, this.1, this.2]
      · rw [if_neg hlt] at h
        exact Option.noConfusion h
    · rw [if_neg hd] at h
      exact Option.noConfusion h

theorem parse_uint_go_complete (bound : Nat) :
    ∀ (l : List Nat) (acc : Nat), l.all is_digit_byte = true →
      l.foldl (fun x c => x * 10 + (c - 48)) acc < bound →
      parse_uint_go bound acc l =
        some (l.foldl (fun x c => x * 10 + (c - 48)) acc) := by
  intro l
  induction l with
  | nil => intro acc _ _; rfl
  | cons b t ih =>
    intro acc hall hlt
    simp only [List.all_cons, Bool.and_eq_true] at hall
    have hmono := foldl_digits_le t (acc * 10 + (b - 48))
    simp only [List.foldl_cons] at hlt ⊢
    simp only [parse_uint_go]
    rw [if_pos hall.1, if_pos (by omega)]
    exact ih _ hall.2 hlt

theorem parse_uint_lt_bound (s : List Nat) (bound v : Nat)
    (h : parse_uint s bound = some v) : v < bound := by
  cases s with
  | nil => exact Option.noConfusion h
  | cons b t =>
    simp only [parse_uint, parse_uint_go] at h
    by_cases hd : is_digit_byte b
    · rw [if_pos hd] at h
      by_cases hlt : 0 * 10 + (b - 48) < bound
      · rw [if_pos hlt] at h
        exact parse_uint_go_lt bound t _ v h hlt
      · rw [if_neg hlt] at h
        exact Option.noConfusion h
    · rw [if_neg hd] at h
      exact Option.noConfusion h

/-- C4: Numeric boundary table: the digit strings 4294967296 (against the
    32-bit width) and 18446744073709551616 (against the 64-bit width), and
    the malformed values minus one, 0.99, dummy and a lone space, are all
    rejected as numeric header values; 0 and 65535 are accepted with their
    exact parsed values; and any accepted value is exact and within the
    bound, never a clamp. -/
theorem C4_numeric_boundary_table :
    parse_uint [52, 50, 57, 52, 57, 54, 55, 50, 57, 54] (2 ^ 32) = none ∧
    parse_uint [49, 56, 52, 52, 54, 55, 52, 52, 48, 55, 51, 55, 48, 57, 53,
      53, 49, 54, 49, 54] (2 ^ 64) = none ∧
    parse_uint [45, 49] (2 ^ 32) = none ∧
    parse_uint [48, 46, 57, 57] (2 ^ 32) = none ∧
    parse_uint [100, 117, 109, 109, 121] (2 ^ 32) = none ∧
    parse_uint [32] (2 ^ 32) = none ∧
    parse_uint [48] (2 ^ 32) = some 0 ∧
    parse_uint [54, 53, 53, 51, 53] (2 ^ 32) = some 65535 ∧
    ∀ (s2 : List Nat) (b2 v2 : Nat), parse_uint s2 b2 = some v2 → v2 < b2 := by
  refine ⟨by decide, by decide, by decide, by decide, by decide, by decide,
    by decide, by decide, ?_⟩
  intro s2 b2 v2 h
  exact parse_uint_lt_bound s2 b2 v2 h

theorem C4_numeric_boundary_table_witness : (65535 : Nat) < 2 ^ 32 :=
  C4_numeric_boundary_table.2.2.2.2.2.2.2.2 [54, 53, 53, 51, 53] (2 ^ 32)
    65535 (by decide)

/-- C8: Numeric width half-open rejection: a digit string is accepted exactly
    when its value lies strictly below the target width bound (half-open, not
    saturating), and the boundaries sit exactly at 2 to the 32, 2 to the 63
    and 2 to the 64: the decimal representations of those values are rejected
    at their own width while their predecessors are accepted with the exact
    value. -/
theorem C8_numeric_width_half_open (s : List Nat) (b v : Nat)
    (hne : s ≠ []) (hdig : s.all is_digit_byte = true) :
    (parse_uint s b = some v ↔ (digits_val s = v ∧ v < b)) ∧
    parse_uint [52, 50, 57, 52, 57, 54, 55, 50, 57, 54] (2 ^ 32) = none ∧
    parse_uint [52, 50, 57, 52, 57, 54, 55, 50, 57, 53] (2 ^ 32) =
      some (2 ^ 32 - 1) ∧
    parse_uint [57, 50, 50, 51, 51, 55, 50, 48, 51, 54, 56, 53, 52, 55, 55,
      53, 56, 48, 56] (2 ^ 63) = none ∧
    parse_uint [57, 50, 50, 51, 51, 55, 50, 48, 51, 54, 56, 53, 52, 55, 55,
      53, 56, 48, 55] (2 ^ 63) = some (2 ^ 63 - 1) ∧
    parse_uint [49, 56, 52, 52, 54, 55, 52, 52, 48, 55, 51, 55, 48, 57, 53,
      53, 49, 54, 49, 54] (2 ^ 64) = none ∧
    parse_uint [49, 56, 52, 52, 54, 55, 52, 52, 48, 55, 51, 55, 48, 57, 53,
      53, 49, 54, 49, 53] (2 ^ 64) = some (2 ^ 64 - 1) := by
  refine ⟨?_, by decide, by decide, by decide, by decide, by decide, by decide⟩
  constructor
  · intro h
    have hs := parse_uint_go_sound b s 0 v ?_
    · refine ⟨?_, parse_uint_lt_bound s b v h⟩
      rw [hs.1]
      rfl
    · cases s with
      | nil => exact absurd rfl hne
      | cons b0 t => exact h
  · rintro ⟨hval, hlt⟩
    cases s with
    | nil => exact absurd rfl hne
    | cons b0 t =>
      have hc := parse_uint_go_complete b (b0 :: t) 0 hdig (by
        have : digits_val (b0 :: t) = (b0 :: t).foldl
            (fun x c => x * 10 + (c - 48)) 0 := rfl
        omega)
      simp only [parse_uint]
      rw [hc]
      have : digits_val (b0 :: t) = (b0 :: t).foldl
          (fun x c => x * 10 + (c - 48)) 0 := rfl
      rw [← this, hval]

theorem C8_numeric_width_half_open_witness :
    (parse_uint [54, 53, 53, 51, 53] (2 ^ 32) = some 65535 ↔
      (digits_val [54, 53, 53, 51, 53] = 65535 ∧ 65535 < 2 ^ 32)) ∧
    parse_uint [52, 50, 57, 52, 57, 54, 55, 50, 57, 54] (2 ^ 32) = none ∧
    parse_uint [52, 50, 57, 52, 57, 54, 55, 50, 57, 53] (2 ^ 32) =
      some (2 ^ 32 - 1) ∧
    parse_uint [57, 50, 50, 51, 51, 55, 50, 48, 51, 54, 56, 53, 52, 55, 55,
      53, 56, 48, 56] (2 ^ 63) = none ∧
    parse_uint [57, 50, 50, 51, 51, 55, 50, 48, 51, 54, 56, 53, 52, 55, 55,
      53, 56, 48, 55] (2 ^ 63) = some (2 ^ 63 - 1) ∧
    parse_uint [49, 56, 52, 52, 54, 55, 52, 52, 48, 55, 51, 55, 48, 57, 53,
      53, 49, 54, 49, 54] (2 ^ 64) = none ∧
    parse_uint [49, 56, 52, 52, 54, 55, 52, 52, 48, 55, 51, 55, 48, 57, 53,
      53, 49, 54, 49, 53] (2 ^ 64) = some (2 ^ 64 - 1) :=
  C8_numeric_width_half_open [54, 53, 53, 51, 53] (2 ^ 32) 65535
    (by decide) (by decide)

/-- C5: ETag / quoted-token grammar: a correctly quoted value (dummy in
    double quotes, with or without the case-sensitive weak prefix W/) passes,
    while a missing closing quote, a missing opening quote, a wrong quote
    character (single quotes), a space between the weak prefix and the
    opening quote, a lowercase weak prefix, control characters 0x00, 0x0F and
    0x7F inside the quotes, a whitespace-only quoted value, an empty quoted
    value and consecutive quotes without content are all rejected. -/
theorem C5_etag_quoted_token_grammar :
    etag_validate [34, 100, 117, 109, 109, 121, 34] = true ∧
    etag_validate [87, 47, 34, 100, 117, 109, 109, 121, 34] = true ∧
    etag_validate [34, 100, 117, 109, 109, 121] = false ∧
    etag_validate [100, 117, 109, 109, 121, 34] = false ∧
    etag_validate [39, 100, 117, 109, 109, 121, 39] = false ∧
    etag_validate [87, 47, 32, 34, 100, 117, 109, 109, 121, 34] = false ∧
    etag_validate [119, 47, 34, 100, 117, 109, 109, 121, 34] = false ∧
    etag_validate [34, 0, 34] = false ∧
    etag_validate [34, 15, 34] = false ∧
    etag_validate [34, 127, 34] = false ∧
    etag_validate [34, 32, 34] = false ∧
    etag_validate [34, 34] = false ∧
    etag_validate [34, 34, 34] = false := by
  decide

/-- C10: Listen-socket table atomicity and bound: when the table already
    holds LISTEN_SOCKS_MAX sockets, add_listen_sock returns minus ENOBUFS
    with the table and counter unchanged; a socket-creation or bind failure
    returns the error with the state unchanged; success stores the socket in
    the first free slot (index listen_socks_n, whose slot is free while all
    lower slots are occupied) and increments listen_socks_n by exactly one;
    and listen_socks_n never exceeds LISTEN_SOCKS_MAX. -/
theorem C10_add_listen_sock (env : SockEnv) (st : SockClntState)
    (hinv : ∀ i, i < LISTEN_SOCKS_MAX →
      ((st.listen_socks.getD i none).isSome ↔ i < st.listen_socks_n))
    (hbound : st.listen_socks_n ≤ LISTEN_SOCKS_MAX) :
    (st.listen_socks_n = LISTEN_SOCKS_MAX →
       add_listen_sock env st = (-ENOBUFS, st)) ∧
    (∀ r, env.create_res = .err r → st.listen_socks_n ≠ LISTEN_SOCKS_MAX →
       add_listen_sock env st = (r, st)) ∧
    (∀ s r, env.create_res = .ok s → env.bind_err = some r →
       st.listen_socks_n ≠ LISTEN_SOCKS_MAX →
       add_listen_sock env st = (r, st)) ∧
    (∀ s, env.create_res = .ok s → env.bind_err = none →
       st.listen_socks_n ≠ LISTEN_SOCKS_MAX →
       st.listen_socks.getD st.listen_socks_n none = none ∧
       (∀ i, i < st.listen_socks_n →
         (st.listen_socks.getD i none).isSome = true) ∧
       add_listen_sock env st =
         (0, ⟨st.listen_socks.set st.listen_socks_n (some s),
              st.listen_socks_n + 1⟩)) ∧
    (add_listen_sock env st).2.listen_socks_n ≤ LISTEN_SOCKS_MAX := by
  refine ⟨?_, ?_, ?_, ?_, ?_⟩
  · intro h
    unfold add_listen_sock
    rw [if_pos h]
  · intro r hc hn
    unfold add_listen_sock
    rw [if_neg hn, hc]
  · intro s r hc hb hn
    unfold add_listen_sock
    rw [if_neg hn, hc, hb]
  · intro s hc hb hn
    have hlt : st.listen_socks_n < LISTEN_SOCKS_MAX := by omega
    refine ⟨?_, ?_, ?_⟩
    · have h := (hinv st.listen_socks_n hlt).not
      simp only [Nat.lt_irrefl, iff_false, not_lt] at h
      cases hx : st.listen_socks.getD st.listen_socks_n none with
      | none => rfl
      | some y =>
        rw [hx] at h
        simp at h
    · intro i hi
      exact (hinv i (by omega)).mpr hi
    · unfold add_listen_sock
      rw [if_neg hn, hc, hb]
  · unfold add_listen_sock
    by_cases h : st.listen_socks_n = LISTEN_SOCKS_MAX
    · rw [if_pos h]
      exact hbound
    · rw [if_neg h]
      cases env.create_res with
      | err r => exact hbound
      | ok s =>
        cases env.bind_err with
        | some r => exact hbound
        | none =>
          show st.listen_socks_n + 1 ≤ LISTEN_SOCKS_MAX
          omega

theorem C10_add_listen_sock_witness :
    add_listen_sock ⟨.ok 42, none⟩ ⟨List.replicate 8 none, 0⟩ =
      (0, ⟨(List.replicate 8 (none : Option Nat)).set 0 (some 42), 1⟩) ∧
    (add_listen_sock ⟨.ok 42, none⟩
      ⟨List.replicate 8 none, 0⟩).2.listen_socks_n ≤ LISTEN_SOCKS_MAX :=
  have h := C10_add_listen_sock ⟨.ok 42, none⟩ ⟨List.replicate 8 none, 0⟩
    (by decide) (by decide)
  ⟨(h.2.2.2.1 42 rfl rfl (by decide)).2.2, h.2.2.2.2⟩
